import Mathlib

/-!
Verification of the parallel-render orchestration core
(`addons/parallel_render.py`): range partitioners, message-channel framing,
worker supervision and the dispatcher / job state machine.

Frames are modelled as `Int`; machine-level concerns (sockets, processes)
are modelled as explicit byte streams (`List Nat`, one entry per byte) and
explicit lists of incoming messages.
-/

namespace ParallelRender

/-- One inclusive frame range `(start, end)`, as yielded by the partitioners. -/
abbrev FrameRange := Int × Int

/-- The loop of `ParallelRender._get_ranges_parts`:

```
for i in range(1, parts + 1):
    end = i * length // parts
    yield (offset + current, offset + end - 1)
    current = end
```

`current` and `i` are the loop state; `i * length / parts` is Python's
floor division `i * length // parts` (all quantities are non-negative). -/
def partsLoop (offset : Int) (length parts : Nat) (current i : Nat) : List FrameRange :=
  if h : i ≤ parts then
    (offset + (current : Int), offset + ((i * length / parts : Nat) : Int) - 1)
      :: partsLoop offset length parts (i * length / parts) (i + 1)
  else []
termination_by parts + 1 - i
decreasing_by omega

/-- `ParallelRender._get_ranges_parts`: `offset = frame_start`,
`length = frame_end - offset + 1`; if `length <= parts` a single range
covering the whole interval is yielded, otherwise the loop runs with
`current = 0` from `i = 1`. -/
def get_ranges_parts (frame_start frame_end : Int) (parts : Nat) : List FrameRange :=
  if frame_end - frame_start + 1 ≤ (parts : Int) then [(frame_start, frame_end)]
  else partsLoop frame_start (frame_end - frame_start + 1).toNat parts 0 1

/-- `ParallelRender._get_ranges_fixed`:

```
while start <= end:
    yield (start, min(start + increment, end))
    start += increment + 1
```
-/
def get_ranges_fixed (start frame_end : Int) (increment : Nat) : List FrameRange :=
  if h : start ≤ frame_end then
    (start, min (start + (increment : Int)) frame_end)
      :: get_ranges_fixed (start + increment + 1) frame_end increment
  else []
termination_by (frame_end + 1 - start).toNat
decreasing_by omega

/-- `isPartition lo hi rs`: the ranges `rs` are non-empty, ordered by start,
contiguous (each starts one frame after the previous one ends), the first
starts at `lo` and the last ends at `hi` — i.e. `rs` partitions the
inclusive interval `[lo, hi]`. -/
def isPartition (lo hi : Int) : List FrameRange → Prop
  | [] => lo = hi + 1
  | r :: rest => r.1 = lo ∧ r.1 ≤ r.2 ∧ isPartition (r.2 + 1) hi rest

lemma isPartition_nil {lo hi : Int} : isPartition lo hi [] ↔ lo = hi + 1 := Iff.rfl

lemma isPartition_cons {lo hi : Int} {r : FrameRange} {rest : List FrameRange} :
    isPartition lo hi (r :: rest) ↔
      r.1 = lo ∧ r.1 ≤ r.2 ∧ isPartition (r.2 + 1) hi rest := Iff.rfl

lemma isPartition_le {hi : Int} :
    ∀ {l : List FrameRange} {lo : Int}, isPartition lo hi l → lo ≤ hi + 1 := by
  intro l
  induction l with
  | nil => intro lo h; rw [isPartition_nil] at h; omega
  | cons r rest ih =>
    intro lo h
    rw [isPartition_cons] at h
    have := ih h.2.2
    omega

lemma isPartition_mem_bounds {hi : Int} :
    ∀ {l : List FrameRange} {lo : Int}, isPartition lo hi l →
      ∀ r ∈ l, lo ≤ r.1 ∧ r.1 ≤ r.2 ∧ r.2 ≤ hi := by
  intro l
  induction l with
  | nil => intro lo _ r hr; simp at hr
  | cons s rest ih =>
    intro lo h r hr
    rw [isPartition_cons] at h
    have hle := isPartition_le h.2.2
    rcases List.mem_cons.mp hr with hr | hr
    · subst hr; exact ⟨by omega, h.2.1, by omega⟩
    · have := ih h.2.2 r hr
      omega

/-- Every frame of `[lo, hi]` is covered by exactly one range of a partition
(and no frame outside the interval is covered). -/
lemma isPartition_count {hi : Int} :
    ∀ {l : List FrameRange} {lo : Int}, isPartition lo hi l → ∀ f : Int,
      l.countP (fun r => decide (r.1 ≤ f ∧ f ≤ r.2)) =
        if lo ≤ f ∧ f ≤ hi then 1 else 0 := by
  intro l
  induction l with
  | nil =>
    intro lo h f
    rw [isPartition_nil] at h
    simp only [List.countP_nil]
    split_ifs with hc
    · omega
    · rfl
  | cons r rest ih =>
    intro lo h f
    rw [isPartition_cons] at h
    have hle := isPartition_le h.2.2
    rw [List.countP_cons, ih h.2.2 f]
    simp only [decide_eq_true_eq]
    split_ifs <;> omega

lemma isPartition_getLast {hi : Int} :
    ∀ {l : List FrameRange} {lo : Int} (h : isPartition lo hi l) (hne : l ≠ []),
      (l.getLast hne).2 = hi := by
  intro l
  induction l with
  | nil => intro lo _ hne; exact absurd rfl hne
  | cons r rest ih =>
    intro lo h hne
    rw [isPartition_cons] at h
    cases rest with
    | nil =>
      simp only [List.getLast_singleton]
      rw [isPartition_nil] at h
      omega
    | cons s rest' =>
      rw [List.getLast_cons (by simp)]
      exact ih h.2.2 (by simp)

/-- A partition's range lengths sum to the length of the interval. -/
lemma isPartition_sum {hi : Int} :
    ∀ {l : List FrameRange} {lo : Int}, isPartition lo hi l →
      (l.map (fun r => r.2 - r.1 + 1)).sum = hi + 1 - lo := by
  intro l
  induction l with
  | nil => intro lo h; rw [isPartition_nil] at h; simp; omega
  | cons r rest ih =>
    intro lo h
    rw [isPartition_cons] at h
    simp only [List.map_cons, List.sum_cons, ih h.2.2]
    omega

/-- Consecutive ranges of a partition abut: each starts right after the
previous one ends. -/
lemma isPartition_chain {hi : Int} :
    ∀ {l : List FrameRange} {lo : Int}, isPartition lo hi l →
      l.Chain' (fun r s => s.1 = r.2 + 1) := by
  intro l
  induction l with
  | nil => intro lo _; simp
  | cons r rest ih =>
    intro lo h
    rw [isPartition_cons] at h
    rw [List.chain'_cons']
    refine ⟨?_, ih h.2.2⟩
    intro y hy
    cases rest with
    | nil => simp at hy
    | cons s rest' =>
      simp only [List.head?_cons, Option.mem_def, Option.some.injEq] at hy
      subst hy
      exact h.2.2.1

lemma partsLoop_isPartition (offset : Int) (L p : Nat) (hp : 0 < p) (hL : p < L) :
    ∀ k j, j ≤ p → p - j = k →
      isPartition (offset + ((j * L / p : Nat) : Int)) (offset + (L : Int) - 1)
        (partsLoop offset L p (j * L / p) (j + 1)) := by
  intro k
  induction k with
  | zero =>
    intro j hj hk
    have hjp : j = p := by omega
    subst hjp
    rw [partsLoop, dif_neg (by omega)]
    rw [isPartition_nil]
    rw [Nat.mul_div_cancel_left L hp]
    omega
  | succ k ih =>
    intro j hj hk
    have hjlt : j < p := by omega
    rw [partsLoop, dif_pos (by omega : j + 1 ≤ p)]
    rw [isPartition_cons]
    have hstep : j * L / p + 1 ≤ (j + 1) * L / p := by
      have h1 : j * L + p ≤ (j + 1) * L := by
        have hmul : (j + 1) * L = j * L + L := by ring
        omega
      have h2 : (j * L + p) / p ≤ (j + 1) * L / p := Nat.div_le_div_right h1
      rwa [Nat.add_div_right _ hp] at h2
    refine ⟨rfl, ?_, ?_⟩
    · have : ((j * L / p : Nat) : Int) + 1 ≤ (((j + 1) * L / p : Nat) : Int) := by
        exact_mod_cast hstep
      omega
    · have heq : offset + (((j + 1) * L / p : Nat) : Int) - 1 + 1 =
          offset + (((j + 1) * L / p : Nat) : Int) := by ring
      rw [heq]
      exact ih (j + 1) (by omega) (by omega)

lemma partsLoop_length (offset : Int) (L p : Nat) :
    ∀ k i c, p + 1 - i = k → (partsLoop offset L p c i).length = p + 1 - i := by
  intro k
  induction k with
  | zero =>
    intro i c hk
    rw [partsLoop, dif_neg (by omega)]
    simp
    omega
  | succ k ih =>
    intro i c hk
    rw [partsLoop, dif_pos (by omega : i ≤ p)]
    rw [List.length_cons, ih (i + 1) _ (by omega)]
    omega

/-- **C1.** For `frame_start ≤ frame_end` and `parts ≥ 1`,
`_get_ranges_parts` yields ranges that partition `[frame_start, frame_end]`
(contiguous, ordered by start, first starts at `frame_start`, last ends at
`frame_end`), cover every frame of the interval exactly once, contain no
empty range, number at most `parts`, and collapse to the single range
`(frame_start, frame_end)` whenever the interval length is at most `parts`. -/
theorem get_ranges_parts_correct (fs fe : Int) (parts : Nat)
    (hfs : fs ≤ fe) (hp : 1 ≤ parts) :
    isPartition fs fe (get_ranges_parts fs fe parts)
    ∧ (∀ f : Int, fs ≤ f → f ≤ fe →
        (get_ranges_parts fs fe parts).countP (fun r => decide (r.1 ≤ f ∧ f ≤ r.2)) = 1)
    ∧ (∀ r ∈ get_ranges_parts fs fe parts, r.1 ≤ r.2)
    ∧ (get_ranges_parts fs fe parts).Chain' (fun r s => s.1 = r.2 + 1)
    ∧ (get_ranges_parts fs fe parts).length ≤ parts
    ∧ (fe - fs + 1 ≤ (parts : Int) → get_ranges_parts fs fe parts = [(fs, fe)]) := by
  have hmain : isPartition fs fe (get_ranges_parts fs fe parts)
      ∧ (get_ranges_parts fs fe parts).length ≤ parts
      ∧ (fe - fs + 1 ≤ (parts : Int) → get_ranges_parts fs fe parts = [(fs, fe)]) := by
    by_cases hcase : fe - fs + 1 ≤ (parts : Int)
    · rw [get_ranges_parts, if_pos hcase]
      refine ⟨?_, by simpa using hp, fun _ => rfl⟩
      rw [isPartition_cons, isPartition_nil]
      exact ⟨rfl, hfs, rfl⟩
    · rw [get_ranges_parts, if_neg hcase]
      have hp0 : 0 < parts := hp
      have hL : parts < (fe - fs + 1).toNat := by omega
      have H := partsLoop_isPartition fs (fe - fs + 1).toNat parts hp0 hL parts 0
        (by omega) rfl
      simp only [Nat.zero_mul, Nat.zero_div, Nat.cast_zero, add_zero, zero_add] at H
      have hfe : fs + (((fe - fs + 1).toNat : Nat) : Int) - 1 = fe := by omega
      rw [hfe] at H
      refine ⟨H, ?_, fun hcontra => absurd hcontra hcase⟩
      rw [partsLoop_length fs (fe - fs + 1).toNat parts parts 1 _ (by omega)]
      omega
  refine ⟨hmain.1, ?_, ?_, ?_, hmain.2.1, hmain.2.2⟩
  · intro f h1 h2
    rw [isPartition_count hmain.1 f, if_pos ⟨h1, h2⟩]
  · intro r hr
    exact (isPartition_mem_bounds hmain.1 r hr).2.1
  · exact isPartition_chain hmain.1

lemma get_ranges_fixed_isPartition (fe : Int) (inc : Nat) :
    ∀ (n : Nat) (s : Int), (fe + 1 - s).toNat ≤ n → s ≤ fe →
      isPartition s fe (get_ranges_fixed s fe inc) := by
  intro n
  induction n with
  | zero => intro s hn hs; omega
  | succ n ih =>
    intro s hn hs
    rw [get_ranges_fixed, dif_pos hs, isPartition_cons]
    by_cases hnext : s + (inc : Int) + 1 ≤ fe
    · have hmin : min (s + (inc : Int)) fe = s + (inc : Int) := by omega
      rw [hmin]
      exact ⟨rfl, by omega, ih (s + inc + 1) (by omega) hnext⟩
    · have hmin : min (s + (inc : Int)) fe = fe := by omega
      rw [hmin]
      refine ⟨rfl, hs, ?_⟩
      rw [get_ranges_fixed, dif_neg (by omega), isPartition_nil]

/-- Every range `_get_ranges_fixed` emits, other than possibly the last one,
has inclusive length exactly `increment + 1`. -/
lemma get_ranges_fixed_chain (fe : Int) (inc : Nat) :
    ∀ (n : Nat) (s : Int), (fe + 1 - s).toNat ≤ n →
      (get_ranges_fixed s fe inc).Chain' (fun r _t => r.2 = r.1 + (inc : Int)) := by
  intro n
  induction n with
  | zero =>
    intro s hn
    rw [get_ranges_fixed, dif_neg (by omega)]
    simp
  | succ n ih =>
    intro s hn
    by_cases hs : s ≤ fe
    · rw [get_ranges_fixed, dif_pos hs, List.chain'_cons']
      refine ⟨?_, ih (s + inc + 1) (by omega)⟩
      intro y hy
      by_cases hnext : s + (inc : Int) + 1 ≤ fe
      · show min (s + (inc : Int)) fe = s + (inc : Int)
        omega
      · rw [get_ranges_fixed, dif_neg (by omega)] at hy
        simp at hy
    · rw [get_ranges_fixed, dif_neg hs]
      simp

lemma get_ranges_fixed_example :
    get_ranges_fixed 1 30 10 = [(1, 11), (12, 22), (23, 30)] := by
  rw [get_ranges_fixed, dif_pos (by norm_num)]
  rw [get_ranges_fixed, dif_pos (by norm_num)]
  rw [get_ranges_fixed, dif_pos (by norm_num)]
  rw [get_ranges_fixed, dif_neg (by norm_num)]
  norm_num

/-- **C2.** For `frame_start ≤ frame_end` and `increment ≥ 1`,
`_get_ranges_fixed` yields ranges that partition `[frame_start, frame_end]`
(contiguous, ordered by start, no empty range), cover every frame exactly
once, every range except possibly the last has inclusive length
`increment + 1`, the last range ends at `frame_end` (clipped), and
concretely the interval `1..30` with `increment = 10` yields exactly
`(1,11), (12,22), (23,30)`. -/
theorem get_ranges_fixed_correct (fs fe : Int) (inc : Nat)
    (hfs : fs ≤ fe) (hinc : 1 ≤ inc) :
    isPartition fs fe (get_ranges_fixed fs fe inc)
    ∧ (∀ f : Int, fs ≤ f → f ≤ fe →
        (get_ranges_fixed fs fe inc).countP (fun r => decide (r.1 ≤ f ∧ f ≤ r.2)) = 1)
    ∧ (∀ r ∈ get_ranges_fixed fs fe inc, r.1 ≤ r.2)
    ∧ (get_ranges_fixed fs fe inc).Chain' (fun r _t => r.2 = r.1 + (inc : Int))
    ∧ (∀ hne : get_ranges_fixed fs fe inc ≠ [],
        ((get_ranges_fixed fs fe inc).getLast hne).2 = fe)
    ∧ get_ranges_fixed 1 30 10 = [(1, 11), (12, 22), (23, 30)] := by
  have hmain : isPartition fs fe (get_ranges_fixed fs fe inc) :=
    get_ranges_fixed_isPartition fe inc (fe + 1 - fs).toNat fs le_rfl hfs
  refine ⟨hmain, ?_, ?_, ?_, ?_, get_ranges_fixed_example⟩
  · intro f h1 h2
    rw [isPartition_count hmain f, if_pos ⟨h1, h2⟩]
  · intro r hr
    exact (isPartition_mem_bounds hmain r hr).2.1
  · exact get_ranges_fixed_chain fe inc (fe + 1 - fs).toNat fs le_rfl
  · intro hne
    exact isPartition_getLast hmain hne

/-- Witness for C2 at `frame_start = 1`, `frame_end = 30`, `increment = 10`. -/
theorem get_ranges_fixed_correct_witness :
    (1 : Int) ≤ 30 ∧ 1 ≤ 10 ∧
      (isPartition 1 30 (get_ranges_fixed 1 30 10)
       ∧ (∀ f : Int, 1 ≤ f → f ≤ 30 →
           (get_ranges_fixed 1 30 10).countP (fun r => decide (r.1 ≤ f ∧ f ≤ r.2)) = 1)
       ∧ (∀ r ∈ get_ranges_fixed 1 30 10, r.1 ≤ r.2)
       ∧ (get_ranges_fixed 1 30 10).Chain' (fun r _t => r.2 = r.1 + ((10 : Nat) : Int))
       ∧ (∀ hne : get_ranges_fixed 1 30 10 ≠ [],
           ((get_ranges_fixed 1 30 10).getLast hne).2 = 30)
       ∧ get_ranges_fixed 1 30 10 = [(1, 11), (12, 22), (23, 30)]) :=
  ⟨by norm_num, by norm_num, get_ranges_fixed_correct 1 30 10 (by norm_num) (by norm_num)⟩

/-- Witness for C1 at `frame_start = 1`, `frame_end = 30`, `parts = 3`. -/
theorem get_ranges_parts_correct_witness :
    (1 : Int) ≤ 30 ∧ 1 ≤ 3 ∧
      (isPartition 1 30 (get_ranges_parts 1 30 3)
       ∧ (∀ f : Int, 1 ≤ f → f ≤ 30 →
           (get_ranges_parts 1 30 3).countP (fun r => decide (r.1 ≤ f ∧ f ≤ r.2)) = 1)
       ∧ (∀ r ∈ get_ranges_parts 1 30 3, r.1 ≤ r.2)
       ∧ (get_ranges_parts 1 30 3).Chain' (fun r s => s.1 = r.2 + 1)
       ∧ (get_ranges_parts 1 30 3).length ≤ 3
       ∧ ((30 : Int) - 1 + 1 ≤ (3 : Int) → get_ranges_parts 1 30 3 = [(1, 30)])) :=
  ⟨by norm_num, by norm_num, get_ranges_parts_correct 1 30 3 (by norm_num) (by norm_num)⟩

/-! ## Message Channel

Byte streams are `List Nat` (one entry per byte).  Serialization
(`json.dumps` / `json.loads`, library code outside this repository) is
abstracted as a pair of functions `dumps : α → List Nat` /
`loads : List Nat → Option α` assumed to satisfy the library's contract
`loads (dumps m) = some m`; `json.dumps` never produces an empty string,
which is the `dumps m ≠ []` hypothesis below. -/

/-- `MessageChannel.MSG_SIZE_SIZE = struct.calcsize('!i') = 4`. -/
def MSG_SIZE_SIZE : Nat := 4

/-- `struct.pack('!i', n)` for `0 ≤ n < 2^31`: four bytes, big-endian. -/
def pack_be32 (n : Nat) : List Nat :=
  [n / 2 ^ 24 % 256, n / 2 ^ 16 % 256, n / 2 ^ 8 % 256, n % 256]

/-- `struct.unpack('!i', bytes)[0]` for a non-negative value: big-endian
accumulation of the bytes. -/
def unpack_be32 (bytes : List Nat) : Nat :=
  bytes.foldl (fun acc b => acc * 256 + b) 0

/-- `MessageChannel._recv(size)`: block until exactly `size` bytes are
available (reassembling short reads); raise `'Unexpected end of connection'`
(modelled as `none`) if the stream ends first.  Returns the bytes read and
the remaining stream. -/
def chanRecvBytes (size : Nat) (stream : List Nat) : Option (List Nat × List Nat) :=
  if size ≤ stream.length then some (stream.take size, stream.drop size) else none

/-- `MessageChannel.send(msg)`: the bytes this call pushes onto the
connection — the packed length of the serialized payload, then the payload. -/
def chanSend {α : Type} (dumps : α → List Nat) (msg : α) : List Nat :=
  pack_be32 (dumps msg).length ++ dumps msg

/-- `MessageChannel.recv()`: read the 4-byte size; a zero size is the
end-of-stream sentinel and yields `none` ("no message"); otherwise read
exactly `size` payload bytes and deserialize them.  The outer `Option` is
the error channel (`'Unexpected end of connection'` or a deserialization
failure); on success the remaining stream is also returned. -/
def chanRecv {α : Type} (loads : List Nat → Option α) (stream : List Nat) :
    Option (Option α × List Nat) :=
  match chanRecvBytes MSG_SIZE_SIZE stream with
  | none => none
  | some (szBytes, rest) =>
    if unpack_be32 szBytes = 0 then some (none, rest)
    else
      match chanRecvBytes (unpack_be32 szBytes) rest with
      | none => none
      | some (payload, rest2) =>
        match loads payload with
        | none => none
        | some m => some (some m, rest2)

lemma pack_be32_length (n : Nat) : (pack_be32 n).length = 4 := rfl

lemma unpack_pack_be32 (n : Nat) (hn : n < 2 ^ 32) :
    unpack_be32 (pack_be32 n) = n := by
  simp only [pack_be32, unpack_be32, List.foldl_cons, List.foldl_nil]
  omega

lemma chanRecvBytes_append (bytes rest : List Nat) :
    chanRecvBytes bytes.length (bytes ++ rest) = some (bytes, rest) := by
  rw [chanRecvBytes, if_pos (by simp)]
  rw [List.take_left, List.drop_left]

lemma chanRecvBytes_pack (n : Nat) (rest : List Nat) :
    chanRecvBytes MSG_SIZE_SIZE (pack_be32 n ++ rest) = some (pack_be32 n, rest) := by
  have h4 : MSG_SIZE_SIZE = (pack_be32 n).length := rfl
  rw [h4, chanRecvBytes_append]

/-- **C3.** Message-channel round trip: for any serializable payload (any
`dumps`/`loads` pair satisfying the serialization library's contract, with
non-empty serialized form below the 31-bit frame-size limit), a `recv` on
one end of the connection after a `send` of the payload on the other end
reproduces the payload exactly and consumes exactly the sent bytes; and a
zero-length frame (the end-of-stream sentinel) makes `recv` return the
"no message" value `none`. -/
theorem message_channel_roundtrip {α : Type}
    (dumps : α → List Nat) (loads : List Nat → Option α)
    (hinv : ∀ m, loads (dumps m) = some m) (m : α) (rest : List Nat)
    (hne : dumps m ≠ []) (hsz : (dumps m).length < 2 ^ 31) :
    chanRecv loads (chanSend dumps m ++ rest) = some (some m, rest)
    ∧ chanRecv loads (pack_be32 0 ++ rest) = some (none, rest) := by
  constructor
  · rw [chanSend, List.append_assoc]
    simp only [chanRecv, chanRecvBytes_pack]
    rw [unpack_pack_be32 (dumps m).length (by omega)]
    rw [if_neg (by simpa using hne)]
    simp only [chanRecvBytes_append, hinv]
  · simp only [chanRecv, chanRecvBytes_pack]
    rw [unpack_pack_be32 0 (by norm_num)]
    simp

/-- A concrete one-byte serializer for `Bool` payloads, used to witness the
serialization-contract hypotheses. -/
def dumpsBool (b : Bool) : List Nat := [if b then 1 else 0]

/-- Concrete deserializer matching `dumpsBool`. -/
def loadsBool (bytes : List Nat) : Option Bool :=
  match bytes with
  | [0] => some false
  | [1] => some true
  | _ => none

/-- Witness for C3: the `Bool` payload `true` with one trailing byte `7`
left on the stream. -/
theorem message_channel_roundtrip_witness :
    (∀ m, loadsBool (dumpsBool m) = some m) ∧ dumpsBool true ≠ [] ∧
      (dumpsBool true).length < 2 ^ 31 ∧
      (chanRecv loadsBool (chanSend dumpsBool true ++ [7]) = some (some true, [7])
       ∧ chanRecv loadsBool (pack_be32 0 ++ [7]) = some (none, [7])) :=
  ⟨by decide, by decide, by decide,
    message_channel_roundtrip dumpsBool loadsBool (by decide) true [7]
      (by decide) (by decide)⟩

/-! ## Worker supervisor handshake -/

/-- `WorkerProcess.__enter__` handshake write (the child's standard input):

```
self._p.stdin.write(json.dumps(config).encode('utf8'))
self._p.stdin.close()
```

Given the serialized config, returns the bytes written to the child's
standard input and whether the input stream was closed afterwards. -/
def workerHandshakeWrite (configBytes : List Nat) : List Nat × Bool :=
  (configBytes, true)

/-- `WorkerProcess.read_config` on the worker side:
`config = json.load(sys.stdin)` — parse the child's entire standard input
as one serialized payload. -/
def read_config {α : Type} (loads : List Nat → Option α) (stdin : List Nat) : Option α :=
  loads stdin

/-- **C7 counterexample.** The handshake bytes written to the child's
standard input are not the Message Channel's length-prefixed frame of the
payload: for the one-byte serialized payload `[123]` (`'{'`), the supervisor
writes `[123]`, while the Message Channel's convention would send
`[0, 0, 0, 1, 123]`. -/
theorem worker_handshake_not_length_prefixed :
    (workerHandshakeWrite [123]).1 ≠ chanSend (fun bytes : List Nat => bytes) [123] := by
  decide

/-- **C7 amended.** The handshake payload (controller address plus job
arguments) is written to the child's standard input as the bare UTF-8
serialized payload with *no* length prefix (unlike the Message Channel's
framing), the input stream is closed afterwards, and the worker's
`read_config` — which parses the whole standard input — recovers the
payload exactly. -/
theorem worker_handshake_spec {α : Type}
    (dumps : α → List Nat) (loads : List Nat → Option α)
    (hinv : ∀ m, loads (dumps m) = some m) (config : α) :
    (workerHandshakeWrite (dumps config)).1 = dumps config
    ∧ (workerHandshakeWrite (dumps config)).2 = true
    ∧ read_config loads (workerHandshakeWrite (dumps config)).1 = some config := by
  exact ⟨rfl, rfl, hinv config⟩

/-- Witness for the amended C7, with the concrete `Bool` serializer and the
payload `false`. -/
theorem worker_handshake_spec_witness :
    (∀ m, loadsBool (dumpsBool m) = some m) ∧
      ((workerHandshakeWrite (dumpsBool false)).1 = dumpsBool false
       ∧ (workerHandshakeWrite (dumpsBool false)).2 = true
       ∧ read_config loadsBool (workerHandshakeWrite (dumpsBool false)).1 = some false) :=
  ⟨by decide, worker_handshake_spec dumpsBool loadsBool (by decide) false⟩

/-! ## Dispatcher / job state machine -/

/-- `ParallelRenderState`. -/
inductive JState
  | CLEANING
  | RUNNING
  | MIXDOWN
  | CONCATENATE
  | FAILED
  | CANCELLING
deriving DecidableEq

/-- One progress message from a worker: `{'current_frame': ...}`, the final
one also carrying `'output_file'`. -/
structure WorkerMsg where
  current_frame : Int
  output_file : Option String
deriving DecidableEq

/-- `RunResult = namedtuple('RunResult', ('range', 'command', 'rc', 'output_file'))`
(the `command` component is omitted: it is a function of the range). -/
structure RunResult where
  range : FrameRange
  rc : Option Int
  output_file : Option String
deriving DecidableEq

/-- The per-batch closure `run(args)` of `_render_project_file`, as a
function of the job state observed on entry, the batch's range, the
messages its channel delivers before the end-of-stream sentinel, and the
child process's exit code:

* if the state is not `RUNNING`, the worker is never spawned and the
  result carries `rc = None` and no output file;
* with no message before the sentinel, `msg` is still `None` after the
  loop, so `LOGGER.info(status_msg)` references `status_msg` before any
  assignment; the exception is caught and converted to `rc = -1`, and
  `worker.wait()` — the child's exit code — is never collected;
* if the last message lacks `'output_file'`, the `msg['output_file']`
  lookup raises `KeyError`, likewise converted to `rc = -1`;
* otherwise the result records the last message's output file and the
  child's exit code from `worker.wait()`. -/
def runWorker (state : JState) (rng : FrameRange) (msgs : List WorkerMsg)
    (child_rc : Int) : RunResult :=
  if state = JState.RUNNING then
    match msgs.getLast? with
    | none => ⟨rng, some (-1), none⟩
    | some m =>
      match m.output_file with
      | none => ⟨rng, some (-1), none⟩
      | some f => ⟨rng, some child_rc, some f⟩
  else ⟨rng, none, none⟩

/-- **C10.** If a worker's channel delivers only the end-of-stream sentinel
with no preceding progress message, `run` produces a `RunResult` with the
failure exit code `-1` and a null output file, whatever exit code the child
process itself reports: the reference to `status_msg` raises before the
child's exit code is collected, and the exception is converted to the `-1`
sentinel. -/
theorem runWorker_no_messages (rng : FrameRange) (child_rc : Int) :
    runWorker JState.RUNNING rng [] child_rc = ⟨rng, some (-1), none⟩ := rfl

/-- `res.rc not in (0, None)`: the dispatcher's per-result failure test.
Note that a `None` exit code does *not* count as failing here. -/
def isFailingRC (rc : Option Int) : Bool :=
  match rc with
  | none => false
  | some r => decide (r ≠ 0)

lemma isFailingRC_iff (rc : Option Int) :
    isFailingRC rc = true ↔ ∃ c : Int, rc = some c ∧ c ≠ 0 := by
  cases rc with
  | none => simp [isFailingRC]
  | some c => simp [isFailingRC]

/-- State of the result-collection loop: `num` from
`enumerate(pending, 1)` (stored into `batches_done`), the results recorded
so far (`results[res.range] = res`; the ranges of one job are distinct, so
the dict is modelled as the list of results in arrival order), and the job
state. -/
structure CollectSt where
  batches_done : Nat
  collected : List RunResult
  state : JState
deriving DecidableEq

/-- One iteration of the collection loop: `batches_done = num`, record the
result, then `if any(res.rc not in (0, None) for res in results.values()):
self.state = FAILED`. -/
def collectStep (s : CollectSt) (r : RunResult) : CollectSt :=
  { batches_done := s.batches_done + 1
    collected := s.collected ++ [r]
    state := if (s.collected ++ [r]).any (fun x => isFailingRC x.rc) then JState.FAILED
             else s.state }

/-- The whole collection loop over the arriving results, starting from
`self.state = ParallelRenderState.RUNNING` and an empty summary. -/
def collectAll (results : List RunResult) : CollectSt :=
  results.foldl collectStep ⟨0, [], JState.RUNNING⟩

lemma collectAll_go (l : List RunResult) :
    ∀ (n : Nat) (acc : List RunResult),
      l.foldl collectStep
          ⟨n, acc, if acc.any (fun x => isFailingRC x.rc) then JState.FAILED
                   else JState.RUNNING⟩
        = ⟨n + l.length, acc ++ l,
            if (acc ++ l).any (fun x => isFailingRC x.rc) then JState.FAILED
            else JState.RUNNING⟩ := by
  induction l with
  | nil => intro n acc; simp
  | cons r rest ih =>
    intro n acc
    have hstep : collectStep
        ⟨n, acc, if acc.any (fun x => isFailingRC x.rc) then JState.FAILED
                 else JState.RUNNING⟩ r
        = ⟨n + 1, acc ++ [r],
            if (acc ++ [r]).any (fun x => isFailingRC x.rc) then JState.FAILED
            else JState.RUNNING⟩ := by
      simp only [collectStep, CollectSt.mk.injEq, true_and]
      by_cases h : (acc ++ [r]).any (fun x => isFailingRC x.rc)
      · simp [h]
      · have hacc : acc.any (fun x => isFailingRC x.rc) = false := by
          rw [List.any_append] at h
          simp only [Bool.or_eq_true, not_or] at h
          simpa using h.1
        simp [h, hacc]
    rw [List.foldl_cons, hstep, ih (n + 1) (acc ++ [r])]
    simp only [CollectSt.mk.injEq, List.append_assoc, List.singleton_append,
      List.length_cons]
    exact ⟨by omega, trivial, trivial⟩

/-- Closed form of the collection loop: `batches_done` ends at the number
of results, every result is recorded, and the final state is `FAILED`
exactly when some result's exit code fails the `not in (0, None)` test. -/
lemma collectAll_spec (results : List RunResult) :
    collectAll results
      = ⟨results.length, results,
          if results.any (fun x => isFailingRC x.rc) then JState.FAILED
          else JState.RUNNING⟩ := by
  have h := collectAll_go results 0 []
  simpa [collectAll] using h

/-- Rendering post-processing options of the property group. -/
structure PipelineProps where
  mixdown : Bool
  concatenate : Bool
  clean_up_parts : Bool
deriving DecidableEq

/-- The three post-processing stages of `_render_project_file`. -/
inductive Stage
  | mixdownStage
  | concatenateStage
  | cleaningStage
deriving DecidableEq

/-- The post-collection pipeline of `_render_project_file`:

* mixdown runs iff the state is still `RUNNING` and `props.mixdown`; the
  state passes through `MIXDOWN` and returns to `RUNNING`;
* concatenation runs iff the state is still `RUNNING` and
  `props.concatenate`; exit code `0` of the external tool returns the
  state to `RUNNING`, anything else sets `FAILED`;
* cleanup runs iff the state is still `RUNNING` and
  `props.clean_up_parts`, returning to `RUNNING`.

Returns the final state and the list of stages that executed. -/
def pipeline (st0 : JState) (props : PipelineProps) (concat_rc : Int) :
    JState × List Stage :=
  let s1 : JState × List Stage :=
    if st0 = JState.RUNNING ∧ props.mixdown then (JState.RUNNING, [Stage.mixdownStage])
    else (st0, [])
  let s2 : JState × List Stage :=
    if s1.1 = JState.RUNNING ∧ props.concatenate then
      (if concat_rc = 0 then JState.RUNNING else JState.FAILED,
       s1.2 ++ [Stage.concatenateStage])
    else s1
  if s2.1 = JState.RUNNING ∧ props.clean_up_parts then
    (JState.RUNNING, s2.2 ++ [Stage.cleaningStage])
  else s2

/-- Once the job state is `FAILED`, no pipeline stage executes. -/
lemma pipeline_failed (props : PipelineProps) (concat_rc : Int) :
    pipeline JState.FAILED props concat_rc = (JState.FAILED, []) := by
  simp [pipeline]

/-- **C5.** If exactly one collected batch result carries a failing exit
code (non-zero and non-null), then: the job state at the end of the
collection loop is `FAILED`; every dispatched batch still has its result
collected (`batches_done` reaches the batch count and all results are
recorded — in-flight siblings are not cancelled); and no pipeline stage
(mixdown, concatenation or cleanup) executes, whatever post-processing was
requested and whatever the external tool would have returned. -/
theorem one_failing_batch_fails_job (results : List RunResult)
    (hone : results.countP (fun r => isFailingRC r.rc) = 1) :
    (collectAll results).state = JState.FAILED
    ∧ (collectAll results).collected = results
    ∧ (collectAll results).batches_done = results.length
    ∧ ∀ (props : PipelineProps) (concat_rc : Int),
        pipeline (collectAll results).state props concat_rc = (JState.FAILED, []) := by
  have hpos : 0 < results.countP (fun r => isFailingRC r.rc) := by omega
  have hany : results.any (fun x => isFailingRC x.rc) = true := by
    rw [List.any_eq_true]
    simpa using List.countP_pos_iff.mp hpos
  refine ⟨?_, ?_, ?_, fun props rc => ?_⟩
  · rw [collectAll_spec]; simp [hany]
  · rw [collectAll_spec]
  · rw [collectAll_spec]
  · rw [collectAll_spec]; simp [hany, pipeline_failed]

/-- Witness for C5: two batches, the first failing with exit code `1`, the
second succeeding. -/
theorem one_failing_batch_fails_job_witness :
    ([⟨(1, 5), some 1, none⟩, ⟨(6, 9), some 0, some "x"⟩] : List RunResult).countP
        (fun r => isFailingRC r.rc) = 1
    ∧ ((collectAll [⟨(1, 5), some 1, none⟩, ⟨(6, 9), some 0, some "x"⟩]).state
          = JState.FAILED
       ∧ (collectAll [⟨(1, 5), some 1, none⟩, ⟨(6, 9), some 0, some "x"⟩]).collected
          = [⟨(1, 5), some 1, none⟩, ⟨(6, 9), some 0, some "x"⟩]
       ∧ (collectAll [⟨(1, 5), some 1, none⟩, ⟨(6, 9), some 0, some "x"⟩]).batches_done
          = ([⟨(1, 5), some 1, none⟩, ⟨(6, 9), some 0, some "x"⟩] : List RunResult).length
       ∧ ∀ (props : PipelineProps) (concat_rc : Int),
          pipeline (collectAll [⟨(1, 5), some 1, none⟩, ⟨(6, 9), some 0, some "x"⟩]).state
              props concat_rc = (JState.FAILED, [])) :=
  ⟨by decide, one_failing_batch_fails_job _ (by decide)⟩

/-- **C6 counterexample.** A collected result whose exit code is `None`
does not drive the dispatcher to `FAILED`: after collecting the single
result `RunResult(range=(1, 2), rc=None, output_file=None)` the job state
is still not `FAILED` (it is `RUNNING`), because `res.rc not in (0, None)`
is false for `None`. -/
theorem none_rc_not_failing_cex :
    ¬ (collectAll [⟨(1, 2), none, none⟩]).state = JState.FAILED := by
  decide

/-- **C6 amended.** The dispatcher treats a null (`None`) exit code as
*non*-failing: after collecting any sequence of results, the job state is
`FAILED` if and only if some collected result carries an exit code that is
non-null and different from `0`. -/
theorem failed_iff_nonzero_rc (results : List RunResult) :
    (collectAll results).state = JState.FAILED
      ↔ ∃ r ∈ results, ∃ c : Int, r.rc = some c ∧ c ≠ 0 := by
  have hstate : (collectAll results).state
      = if results.any (fun x => isFailingRC x.rc) then JState.FAILED
        else JState.RUNNING := by
    rw [collectAll_spec]
  rw [hstate]
  by_cases hany : results.any (fun x => isFailingRC x.rc) = true
  · rw [if_pos hany]
    constructor
    · intro _
      rw [List.any_eq_true] at hany
      obtain ⟨r, hr, hfail⟩ := hany
      exact ⟨r, hr, (isFailingRC_iff r.rc).mp hfail⟩
    · intro _
      rfl
  · rw [if_neg hany]
    constructor
    · intro h
      exact absurd h (by decide)
    · rintro ⟨r, hr, c, hc, hc0⟩
      exact absurd (List.any_eq_true.mpr
        ⟨r, hr, (isFailingRC_iff r.rc).mpr ⟨c, hc, hc0⟩⟩) hany

/-! ## Progress aggregation (`summary`) -/

/-- The `self.summary` dict of `_render_project_file`. -/
structure Summary where
  batches : Nat
  batches_done : Nat
  frames : Int
  frames_done : Int
deriving DecidableEq

/-- `max(s[1] for s in ranges) - min(s[0] for s in ranges) + 1`: the
Python `max`/`min` fold over the generators, starting from the first
element.  (On an empty range list the Python code would raise; the
partitioner never yields an empty list for a valid interval.  Modelled as
`0` in that unreachable case.) -/
def framesTotal : List FrameRange → Int
  | [] => 0
  | r :: rs =>
    rs.foldl (fun m p => max m p.2) r.2 - rs.foldl (fun m p => min m p.1) r.1 + 1

/-- `self.summary` as initialised in `_render_project_file`:
`batches = len(cmds)`, `batches_done = 0`, `frames = max - min + 1`,
`frames_done = 0`. -/
def initSummary (ranges : List FrameRange) : Summary :=
  { batches := ranges.length
    batches_done := 0
    frames := framesTotal ranges
    frames_done := 0 }

/-- The successive deltas `frame_done - last_done` that one batch's
progress loop adds to `frames_done`, starting from `last_done = rng[0]`. -/
def deltas (last : Int) : List Int → List Int
  | [] => []
  | f :: fs => (f - last) :: deltas f fs

/-- Every increment one batch applies to the shared
`summary['frames_done']` under the mutex: one delta per received progress
message, then the final `frames_done += 1` once the sentinel arrives. -/
def batchUpdates (rng : FrameRange) (msgs : List WorkerMsg) : List Int :=
  deltas rng.1 (msgs.map WorkerMsg.current_frame) ++ [1]

/-- Total contribution of one batch to `frames_done`. -/
def batchContrib (rng : FrameRange) (msgs : List WorkerMsg) : Int :=
  (batchUpdates rng msgs).sum

/-- Contribution of one batch after only its first `k` updates. -/
def batchContribAt (rng : FrameRange) (msgs : List WorkerMsg) (k : Nat) : Int :=
  ((batchUpdates rng msgs).take k).sum

/-- The deltas telescope: one batch's progress-loop increments sum to the
last reported frame minus the range start. -/
lemma deltas_sum : ∀ (fr : List Int) (last : Int),
    (deltas last fr).sum = fr.getLast?.getD last - last := by
  intro fr
  induction fr with
  | nil => intro last; simp [deltas]
  | cons f fs ih =>
    intro last
    rw [deltas, List.sum_cons, ih f]
    cases fs with
    | nil => simp
    | cons g gs =>
      rw [List.getLast?_cons_cons]
      have hne : (g :: gs) ≠ ([] : List Int) := by simp
      rw [List.getLast?_eq_getLast _ hne]
      simp

lemma batchContrib_eq (rng : FrameRange) (msgs : List WorkerMsg) :
    batchContrib rng msgs
      = ((msgs.map WorkerMsg.current_frame).getLast?.getD rng.1) - rng.1 + 1 := by
  rw [batchContrib, batchUpdates, List.sum_append, deltas_sum]
  simp

/-- Total of `frames_done` once every batch has applied all of its
updates: the sum of the per-batch contributions, batch by batch. -/
def totalFramesDone : List FrameRange → List (List WorkerMsg) → Int
  | r :: rs, ms :: mss => batchContrib r ms + totalFramesDone rs mss
  | _, _ => 0

/-- If each batch's last message reports its range's end frame, the total
`frames_done` is the sum of the inclusive range lengths. -/
lemma totalFramesDone_eq {ranges : List FrameRange} {msgss : List (List WorkerMsg)}
    (h : List.Forall₂ (fun rng msgs =>
        (msgs.map WorkerMsg.current_frame).getLast? = some rng.2) ranges msgss) :
    totalFramesDone ranges msgss = (ranges.map (fun r => r.2 - r.1 + 1)).sum := by
  induction h with
  | nil => simp [totalFramesDone]
  | cons hrel _htail ih =>
    simp only [totalFramesDone, List.map_cons, List.sum_cons]
    rw [ih, batchContrib_eq, hrel]
    simp

lemma foldl_max_partition {hi : Int} :
    ∀ {l : List FrameRange} {lo : Int}, isPartition lo hi l → l ≠ [] →
      ∀ b : Int, b ≤ hi → l.foldl (fun m p => max m p.2) b = hi := by
  intro l
  induction l with
  | nil => intro lo _ hne; exact absurd rfl hne
  | cons r rest ih =>
    intro lo h _hne b hb
    have h' := isPartition_cons.mp h
    rw [List.foldl_cons]
    cases rest with
    | nil =>
      have := isPartition_nil.mp h'.2.2
      simp only [List.foldl_nil]
      omega
    | cons s rest' =>
      have hr2 : r.2 + 1 ≤ hi + 1 := isPartition_le h'.2.2
      exact ih h'.2.2 (by simp) (max b r.2) (by omega)

lemma foldl_min_const {b : Int} :
    ∀ {l : List FrameRange}, (∀ p ∈ l, b ≤ p.1) →
      l.foldl (fun m p => min m p.1) b = b := by
  intro l
  induction l with
  | nil => intro _; simp
  | cons r rest ih =>
    intro hall
    rw [List.foldl_cons]
    have h1 : b ≤ r.1 := hall r (by simp)
    have h2 : min b r.1 = b := by omega
    rw [h2]
    exact ih (fun p hp => hall p (by simp [hp]))

/-- For a partition of `[lo, hi]`, the summary's `frames` field
(`max - min + 1`) is the interval length. -/
lemma framesTotal_partition {lo hi : Int} {l : List FrameRange}
    (h : isPartition lo hi l) (hne : l ≠ []) :
    framesTotal l = hi - lo + 1 := by
  cases l with
  | nil => exact absurd rfl hne
  | cons r rest =>
    have h' := isPartition_cons.mp h
    simp only [framesTotal]
    have hmax : rest.foldl (fun m p => max m p.2) r.2 = hi := by
      cases rest with
      | nil =>
        have := isPartition_nil.mp h'.2.2
        simp only [List.foldl_nil]
        omega
      | cons s rest' =>
        have hr2 : r.2 + 1 ≤ hi + 1 := isPartition_le h'.2.2
        exact foldl_max_partition h'.2.2 (by simp) r.2 (by omega)
    have hmin : rest.foldl (fun m p => min m p.1) r.1 = r.1 := by
      apply foldl_min_const
      intro p hp
      have := isPartition_mem_bounds h'.2.2 p hp
      omega
    rw [hmax, hmin]
    omega

/-- **C4.** If every dispatched batch completes successfully — its channel
delivers at least one progress message, the final message carries the
range's end frame, and then the sentinel arrives — then once all results
are collected the shared summary satisfies `frames_done = frames` (the
span of all ranges) and `batches_done = batches` (the number of ranges). -/
theorem dispatcher_aggregation (fs fe : Int) (ranges : List FrameRange)
    (msgss : List (List WorkerMsg)) (results : List RunResult)
    (hfs : fs ≤ fe)
    (hpart : isPartition fs fe ranges)
    (hmsgs : List.Forall₂ (fun rng msgs =>
        (msgs.map WorkerMsg.current_frame).getLast? = some rng.2) ranges msgss)
    (hres : results.length = ranges.length) :
    totalFramesDone ranges msgss = (initSummary ranges).frames
    ∧ (collectAll results).batches_done = (initSummary ranges).batches := by
  have hne : ranges ≠ [] := by
    intro hnil
    subst hnil
    rw [isPartition_nil] at hpart
    omega
  constructor
  · rw [totalFramesDone_eq hmsgs, isPartition_sum hpart]
    show _ = framesTotal ranges
    rw [framesTotal_partition hpart hne]
    omega
  · rw [collectAll_spec]
    show results.length = ranges.length
    exact hres

/-- Witness for C4: the partition `[(1, 2), (3, 3)]` of `1..3`, the first
worker reporting frames `1` then `2`, the second reporting frame `3`. -/
theorem dispatcher_aggregation_witness :
    (1 : Int) ≤ 3
    ∧ isPartition 1 3 [((1 : Int), (2 : Int)), (3, 3)]
    ∧ List.Forall₂ (fun (rng : FrameRange) (msgs : List WorkerMsg) =>
        (msgs.map WorkerMsg.current_frame).getLast? = some rng.2)
        [((1 : Int), (2 : Int)), (3, 3)]
        [[⟨1, none⟩, ⟨2, some "a"⟩], [⟨3, some "b"⟩]]
    ∧ ([⟨(1, 2), some 0, some "a"⟩, ⟨(3, 3), some 0, some "b"⟩] : List RunResult).length
        = ([((1 : Int), (2 : Int)), (3, 3)] : List FrameRange).length
    ∧ (totalFramesDone [((1 : Int), (2 : Int)), (3, 3)]
          [[⟨1, none⟩, ⟨2, some "a"⟩], [⟨3, some "b"⟩]]
        = (initSummary [((1 : Int), (2 : Int)), (3, 3)]).frames
       ∧ (collectAll [⟨(1, 2), some 0, some "a"⟩, ⟨(3, 3), some 0, some "b"⟩]).batches_done
        = (initSummary [((1 : Int), (2 : Int)), (3, 3)]).batches) :=
  ⟨by norm_num,
   by simp [isPartition_cons, isPartition_nil],
   by exact List.Forall₂.cons (by simp) (List.Forall₂.cons (by simp) List.Forall₂.nil),
   by rfl,
   dispatcher_aggregation 1 3 _ _ _ (by norm_num)
     (by simp [isPartition_cons, isPartition_nil])
     (List.Forall₂.cons (by simp) (List.Forall₂.cons (by simp) List.Forall₂.nil))
     (by rfl)⟩

/-! ## Summary invariants under concurrent progress updates

The summary mutex serializes all increments, so any reachable value of
`frames_done` is the sum, over the batches, of a prefix of each batch's
update sequence. -/

lemma deltas_nonneg : ∀ (fr : List Int) (last : Int),
    List.Chain' (· ≤ ·) (last :: fr) → ∀ d ∈ deltas last fr, 0 ≤ d := by
  intro fr
  induction fr with
  | nil => intro last _ d hd; simp [deltas] at hd
  | cons f fs ih =>
    intro last hch d hd
    rw [List.chain'_cons] at hch
    rw [deltas] at hd
    rcases List.mem_cons.mp hd with h | h
    · subst h
      have := hch.1
      omega
    · exact ih f hch.2 d h

/-- If a worker reports non-decreasing frames starting from its range
start, every one of its `frames_done` increments is non-negative. -/
lemma batchUpdates_nonneg {rng : FrameRange} {msgs : List WorkerMsg}
    (hch : List.Chain' (· ≤ ·) (rng.1 :: msgs.map WorkerMsg.current_frame)) :
    ∀ d ∈ batchUpdates rng msgs, 0 ≤ d := by
  intro d hd
  rw [batchUpdates, List.mem_append] at hd
  rcases hd with hd | hd
  · exact deltas_nonneg _ _ hch d hd
  · simp at hd
    omega

lemma take_sum_nonneg {l : List Int} (h : ∀ x ∈ l, 0 ≤ x) (k : Nat) :
    0 ≤ (l.take k).sum :=
  List.sum_nonneg (fun x hx => h x (List.take_subset k l hx))

lemma take_sum_mono {l : List Int} (h : ∀ x ∈ l, 0 ≤ x) {k k' : Nat} (hk : k ≤ k') :
    (l.take k).sum ≤ (l.take k').sum := by
  have hsplit : l.take k' = l.take k ++ (l.drop k).take (k' - k) := by
    rw [← List.take_add]
    congr 1
    omega
  rw [hsplit, List.sum_append]
  have h0 : 0 ≤ ((l.drop k).take (k' - k)).sum :=
    List.sum_nonneg (fun x hx => h x (List.drop_subset k l (List.take_subset _ _ hx)))
  omega

lemma take_sum_le {l : List Int} (h : ∀ x ∈ l, 0 ≤ x) (k : Nat) :
    (l.take k).sum ≤ l.sum := by
  by_cases hk : k ≤ l.length
  · calc (l.take k).sum ≤ (l.take l.length).sum := take_sum_mono h hk
    _ = l.sum := by rw [List.take_length]
  · rw [List.take_of_length_le (by omega)]

lemma batchContribAt_nonneg {rng : FrameRange} {msgs : List WorkerMsg}
    (hch : List.Chain' (· ≤ ·) (rng.1 :: msgs.map WorkerMsg.current_frame)) (k : Nat) :
    0 ≤ batchContribAt rng msgs k :=
  take_sum_nonneg (batchUpdates_nonneg hch) k

lemma batchContribAt_mono {rng : FrameRange} {msgs : List WorkerMsg}
    (hch : List.Chain' (· ≤ ·) (rng.1 :: msgs.map WorkerMsg.current_frame))
    {k k' : Nat} (hk : k ≤ k') :
    batchContribAt rng msgs k ≤ batchContribAt rng msgs k' :=
  take_sum_mono (batchUpdates_nonneg hch) hk

/-- A worker that never reports beyond its range end contributes at most
the inclusive length of its range to `frames_done`. -/
lemma batchContrib_le {rng : FrameRange} {msgs : List WorkerMsg}
    (hub : ∀ f ∈ msgs.map WorkerMsg.current_frame, f ≤ rng.2) (hr : rng.1 ≤ rng.2) :
    batchContrib rng msgs ≤ rng.2 - rng.1 + 1 := by
  rw [batchContrib_eq]
  cases h : (msgs.map WorkerMsg.current_frame).getLast? with
  | none =>
    simp only [Option.getD_none]
    omega
  | some x =>
    have hx : x ∈ msgs.map WorkerMsg.current_frame := by
      have hmem : x ∈ (msgs.map WorkerMsg.current_frame).getLast? := by
        rw [Option.mem_def, h]
      obtain ⟨hne2, hxe⟩ := List.mem_getLast?_eq_getLast hmem
      rw [hxe]
      exact List.getLast_mem hne2
    have := hub x hx
    simp only [Option.getD_some]
    omega

lemma batchContribAt_le {rng : FrameRange} {msgs : List WorkerMsg}
    (hch : List.Chain' (· ≤ ·) (rng.1 :: msgs.map WorkerMsg.current_frame))
    (hub : ∀ f ∈ msgs.map WorkerMsg.current_frame, f ≤ rng.2)
    (hr : rng.1 ≤ rng.2) (k : Nat) :
    batchContribAt rng msgs k ≤ rng.2 - rng.1 + 1 :=
  le_trans (take_sum_le (batchUpdates_nonneg hch) k) (batchContrib_le hub hr)

/-- `frames_done` at an arbitrary instant of the run: batch `i` has applied
its first `ks i` updates. -/
def framesDoneAt : List FrameRange → List (List WorkerMsg) → List Nat → Int
  | [], _, _ => 0
  | _ :: _, [], _ => 0
  | _ :: _, _ :: _, [] => 0
  | r :: rs, ms :: mss, k :: ks => batchContribAt r ms k + framesDoneAt rs mss ks

lemma forall₂_left_mem {α β : Type} {R : α → β → Prop} :
    ∀ {l₁ : List α} {l₂ : List β}, List.Forall₂ R l₁ l₂ → ∀ a ∈ l₁, ∃ b, R a b := by
  intro l₁ l₂ h
  induction h with
  | nil => intro a ha; simp at ha
  | cons hr _ht ih =>
    intro a ha
    rcases List.mem_cons.mp ha with h | h
    · subst h
      exact ⟨_, hr⟩
    · exact ih a h

lemma forall₂_and_left {α β : Type} {R : α → β → Prop} {P : α → Prop} :
    ∀ {l₁ : List α} {l₂ : List β}, List.Forall₂ R l₁ l₂ → (∀ a ∈ l₁, P a) →
      List.Forall₂ (fun a b => P a ∧ R a b) l₁ l₂ := by
  intro l₁ l₂ h
  induction h with
  | nil => intro _; exact List.Forall₂.nil
  | cons hr _ht ih =>
    intro hp
    exact List.Forall₂.cons ⟨hp _ (List.mem_cons_self _ _), hr⟩
      (ih (fun a ha => hp a (List.mem_cons_of_mem _ ha)))

lemma framesDoneAt_nonneg :
    ∀ {ranges : List FrameRange} {msgss : List (List WorkerMsg)},
      List.Forall₂ (fun rng msgs =>
        List.Chain' (· ≤ ·) (rng.1 :: msgs.map WorkerMsg.current_frame)) ranges msgss →
      ∀ ks : List Nat, 0 ≤ framesDoneAt ranges msgss ks := by
  intro ranges
  induction ranges with
  | nil => intro msgss _ ks; simp [framesDoneAt]
  | cons r rs ih =>
    intro msgss h ks
    cases msgss with
    | nil => simp [framesDoneAt]
    | cons ms mss =>
      rw [List.forall₂_cons] at h
      cases ks with
      | nil => simp [framesDoneAt]
      | cons k t =>
        simp only [framesDoneAt]
        have h1 := batchContribAt_nonneg h.1 k
        have h2 := ih h.2 t
        omega

lemma framesDoneAt_mono :
    ∀ {ranges : List FrameRange} {msgss : List (List WorkerMsg)},
      List.Forall₂ (fun rng msgs =>
        List.Chain' (· ≤ ·) (rng.1 :: msgs.map WorkerMsg.current_frame)) ranges msgss →
      ∀ ks ks' : List Nat, List.Forall₂ (fun k k' => k ≤ k') ks ks' →
        framesDoneAt ranges msgss ks ≤ framesDoneAt ranges msgss ks' := by
  intro ranges
  induction ranges with
  | nil => intro msgss _ ks ks' _; simp [framesDoneAt]
  | cons r rs ih =>
    intro msgss h ks ks' hks
    cases msgss with
    | nil => simp [framesDoneAt]
    | cons ms mss =>
      rw [List.forall₂_cons] at h
      cases hks with
      | nil => simp [framesDoneAt]
      | cons hk ht =>
        simp only [framesDoneAt]
        have h1 := batchContribAt_mono h.1 hk
        have h2 := ih h.2 _ _ ht
        omega

lemma framesDoneAt_le :
    ∀ {ranges : List FrameRange} {msgss : List (List WorkerMsg)},
      List.Forall₂ (fun rng msgs =>
        rng.1 ≤ rng.2
        ∧ (List.Chain' (· ≤ ·) (rng.1 :: msgs.map WorkerMsg.current_frame)
           ∧ ∀ f ∈ msgs.map WorkerMsg.current_frame, f ≤ rng.2)) ranges msgss →
      ∀ ks : List Nat,
        framesDoneAt ranges msgss ks ≤ (ranges.map (fun r => r.2 - r.1 + 1)).sum := by
  intro ranges
  induction ranges with
  | nil => intro msgss _ ks; simp [framesDoneAt]
  | cons r rs ih =>
    intro msgss h ks
    cases msgss with
    | nil =>
      exact absurd h (by simp)
    | cons ms mss =>
      rw [List.forall₂_cons] at h
      obtain ⟨⟨hle, hch, hub⟩, ht⟩ := h
      have hrest : 0 ≤ (rs.map (fun q => q.2 - q.1 + 1)).sum := by
        apply List.sum_nonneg
        intro x hx
        rw [List.mem_map] at hx
        obtain ⟨q, hq, rfl⟩ := hx
        obtain ⟨b, hb⟩ := forall₂_left_mem ht q hq
        have := hb.1
        omega
      cases ks with
      | nil =>
        simp only [framesDoneAt, List.map_cons, List.sum_cons]
        omega
      | cons k t =>
        simp only [framesDoneAt, List.map_cons, List.sum_cons]
        have h1 := batchContribAt_le hch hub hle k
        have h2 := ih ht t
        omega

/-- **C9.** Assuming every worker reports non-decreasing frame numbers
within its assigned range, the shared summary's counters always satisfy
their invariant and only ever grow: at any instant of the run (batch `i`
having applied its first `ks i` increments under the mutex),
`0 ≤ frames_done ≤ frames`; advancing any batch's increments never
decreases `frames_done`; and after any number of collected results,
`0 ≤ batches_done ≤ batches` with `batches_done` non-decreasing as more
results arrive. -/
theorem summary_invariants (fs fe : Int) (ranges : List FrameRange)
    (msgss : List (List WorkerMsg))
    (hpart : isPartition fs fe ranges)
    (hmono : List.Forall₂ (fun rng msgs =>
        List.Chain' (· ≤ ·) (rng.1 :: msgs.map WorkerMsg.current_frame)
        ∧ ∀ f ∈ msgs.map WorkerMsg.current_frame, f ≤ rng.2) ranges msgss) :
    (∀ ks : List Nat,
        0 ≤ framesDoneAt ranges msgss ks
        ∧ framesDoneAt ranges msgss ks ≤ (initSummary ranges).frames)
    ∧ (∀ ks ks' : List Nat, List.Forall₂ (fun k k' => k ≤ k') ks ks' →
        framesDoneAt ranges msgss ks ≤ framesDoneAt ranges msgss ks')
    ∧ (∀ (results : List RunResult) (m m' : Nat),
        results.length = ranges.length → m ≤ m' →
          (collectAll (results.take m)).batches_done ≤ (initSummary ranges).batches
          ∧ (collectAll (results.take m)).batches_done
              ≤ (collectAll (results.take m')).batches_done) := by
  have hchain : List.Forall₂ (fun rng msgs =>
      List.Chain' (· ≤ ·) (rng.1 :: msgs.map WorkerMsg.current_frame)) ranges msgss :=
    List.Forall₂.imp (fun a b hab => hab.1) hmono
  have hbounds : ∀ r ∈ ranges, r.1 ≤ r.2 :=
    fun r hr => (isPartition_mem_bounds hpart r hr).2.1
  have hsum : (ranges.map (fun r => r.2 - r.1 + 1)).sum = (initSummary ranges).frames := by
    cases hr : ranges with
    | nil => simp [initSummary, framesTotal]
    | cons a l =>
      rw [← hr]
      show _ = framesTotal ranges
      rw [framesTotal_partition hpart (by rw [hr]; simp), isPartition_sum hpart]
      omega
  refine ⟨?_, ?_, ?_⟩
  · intro ks
    refine ⟨framesDoneAt_nonneg hchain ks, ?_⟩
    have h1 := framesDoneAt_le (forall₂_and_left hmono hbounds) ks
    rwa [hsum] at h1
  · intro ks ks' hks
    exact framesDoneAt_mono hchain ks ks' hks
  · intro results m m' hlen hm
    rw [collectAll_spec, collectAll_spec]
    show (results.take m).length ≤ ranges.length
      ∧ (results.take m).length ≤ (results.take m').length
    simp only [List.length_take]
    omega

/-- Witness for C9: the single-range partition `[(1, 2)]` of `1..2` with
one worker reporting frame `2`. -/
theorem summary_invariants_witness :
    isPartition 1 2 [((1 : Int), (2 : Int))]
    ∧ List.Forall₂ (fun (rng : FrameRange) (msgs : List WorkerMsg) =>
        List.Chain' (· ≤ ·) (rng.1 :: msgs.map WorkerMsg.current_frame)
        ∧ ∀ f ∈ msgs.map WorkerMsg.current_frame, f ≤ rng.2)
        [((1 : Int), (2 : Int))] [[⟨2, some "f"⟩]]
    ∧ ((∀ ks : List Nat,
          0 ≤ framesDoneAt [((1 : Int), (2 : Int))] [[⟨2, some "f"⟩]] ks
          ∧ framesDoneAt [((1 : Int), (2 : Int))] [[⟨2, some "f"⟩]] ks
              ≤ (initSummary [((1 : Int), (2 : Int))]).frames)
       ∧ (∀ ks ks' : List Nat, List.Forall₂ (fun k k' => k ≤ k') ks ks' →
          framesDoneAt [((1 : Int), (2 : Int))] [[⟨2, some "f"⟩]] ks
            ≤ framesDoneAt [((1 : Int), (2 : Int))] [[⟨2, some "f"⟩]] ks')
       ∧ (∀ (results : List RunResult) (m m' : Nat),
          results.length = ([((1 : Int), (2 : Int))] : List FrameRange).length → m ≤ m' →
            (collectAll (results.take m)).batches_done
                ≤ (initSummary [((1 : Int), (2 : Int))]).batches
            ∧ (collectAll (results.take m)).batches_done
                ≤ (collectAll (results.take m')).batches_done)) :=
  ⟨by simp [isPartition_cons, isPartition_nil],
   List.Forall₂.cons ⟨by norm_num [List.chain'_cons], by decide⟩ List.Forall₂.nil,
   summary_invariants 1 2 _ _ (by simp [isPartition_cons, isPartition_nil])
     (List.Forall₂.cons ⟨by norm_num [List.chain'_cons], by decide⟩ List.Forall₂.nil)⟩

/-! ## Concatenation command -/

/-- The external concatenation command built in `_render_project_file`:

```
sound = ()
if props.mixdown:
    sound = ('-i', sound_path, '-codec:a', 'copy', '-q:a', '0')
overwrite = ('-y' if bool(props.overwrite) else '-n',)
base_cmd = (self.ffmpeg_executable, '-nostdin', '-f', 'concat', '-safe', '0',
            '-i', concatenate_files.name, '-codec:v', 'copy', outfile)
cmd = base_cmd + sound + overwrite
```
-/
def concatCommand (ffmpeg_executable list_file outfile sound_path : String)
    (mixdown overwrite : Bool) : List String :=
  (([ffmpeg_executable, "-nostdin", "-f", "concat", "-safe", "0",
     "-i", list_file, "-codec:v", "copy", outfile]
    ++ (if mixdown then ["-i", sound_path, "-codec:a", "copy", "-q:a", "0"] else []))
    ++ [if overwrite then "-y" else "-n"])

/-- **C8 counterexample.** With mixdown enabled, the audio input is
*stream-copied*, not re-encoded: the command built for the concrete
arguments `("ffmpeg", "list.txt", "out.avi", "sound.mp3", mixdown = true,
overwrite = true)` carries `-codec:a` immediately followed by `copy`
among the audio-input arguments, contradicting the claim that the mixed audio input is
re-encoded into the container's audio codec rather than stream-copied. -/
theorem concat_command_audio_copied_cex :
    (concatCommand "ffmpeg" "list.txt" "out.avi" "sound.mp3" true true).drop 11
      = ["-i", "sound.mp3", "-codec:a", "copy", "-q:a", "0", "-y"] := by
  decide

/-- **C8 amended.** When mixdown ran and concatenation is requested, the
external concatenation command is built with stream-copy of video
(`-codec:v copy`), the mixed audio passed as an extra input that is
*stream-copied* as well (`-codec:a copy`, with a vestigial `-q:a 0`), an
explicit overwrite/no-overwrite flag (`-y` or `-n`) as the last argument,
and the job's final output path (which precedes the audio-input arguments
in the constructed command line). -/
theorem concat_command_spec (ffmpeg_executable list_file outfile sound_path : String)
    (ow : Bool) :
    ((concatCommand ffmpeg_executable list_file outfile sound_path true ow).take 11
        = [ffmpeg_executable, "-nostdin", "-f", "concat", "-safe", "0",
           "-i", list_file, "-codec:v", "copy", outfile])
    ∧ ((concatCommand ffmpeg_executable list_file outfile sound_path true ow).drop 11
        = ["-i", sound_path, "-codec:a", "copy", "-q:a", "0",
           if ow then "-y" else "-n"])
    ∧ outfile ∈ concatCommand ffmpeg_executable list_file outfile sound_path true ow
    ∧ (concatCommand ffmpeg_executable list_file outfile sound_path true ow).getLast?
        = some (if ow then "-y" else "-n") := by
  refine ⟨?_, ?_, ?_, ?_⟩
  · simp [concatCommand]
  · simp [concatCommand]
  · simp [concatCommand]
  · simp [concatCommand]

end ParallelRender
